import Mathlib

/-!
Verification of the bibliographic metadata synchronization engine of the
obsidian-zotero-integration plugin.

The development shallowly embeds the relevant TypeScript source:

* the citation-key extraction and new-entry import pass of
  src/main.ts (detectAndImportNewCitations / importBbtCollection);
* the regex-based bibliography field parser, the metadata differ and the
  front-matter patcher of the bibSync module (src/unnamed/part_004);
* the annotation change detector of src/bbt/annotationCache.ts;
* the debounced watch handler of src/main.ts and the reentrancy guard of
  checkForAnnotationChanges.

JavaScript strings are modelled as List Char; JavaScript objects and Maps
as association lists (insertion ordered, keys unique where the runtime
guarantees it); regular expression scans of the source are modelled by
position-by-position matchers that mirror the backtracking-free structure
of the concrete regexes.
-/

namespace ZotSync

/-- JavaScript whitespace as relevant to String.trim and the regex class
for spaces: space, tab, newline, carriage return, vertical tab, form feed. -/
def jsSpace (c : Char) : Bool :=
  c = ' ' || c = '\t' || c = '\n' || c = '\r' || c = '\x0b' || c = '\x0c'

/-- Model of JavaScript String.prototype.trim on a character list. -/
def trimChars (l : List Char) : List Char :=
  ((l.dropWhile jsSpace).reverse.dropWhile jsSpace).reverse

/-- The character class [a-zA-Z] of the field regex. -/
def asciiAlpha (c : Char) : Bool :=
  ('a' ≤ c && c ≤ 'z') || ('A' ≤ c && c ≤ 'Z')

/-- Build a String back from a character list. -/
def strOf (l : List Char) : String := ⟨l⟩

/-- JavaScript object write obj[k] = v: overwrite in place if the key
exists (keeping its position), append otherwise. -/
def upsertA {α : Type} : List (String × α) → String → α → List (String × α)
  | [], k, v => [(k, v)]
  | p :: rest, k, v =>
    if p.1 = k then (k, v) :: rest else p :: upsertA rest k v

/-- Truthiness of a JavaScript string lookup obj[k]: undefined and the
empty string are falsy, every other string is truthy. -/
def truthyStr (o : Option String) : Bool :=
  match o with
  | none => false
  | some v => v ≠ ""

/-! ## Citation-key extraction (src/main.ts lines 633-648 and 465-477)

The key-extraction regex is an exec-loop over
an at sign, then one or more non-brace characters, then an opening brace,
then one or more characters that are neither comma nor closing brace
(captured), then a comma or closing brace.  The pattern is
backtracking-free: each greedy character class is followed by a character
it cannot contain, so the regex engine's leftmost-match semantics reduce
to scanning start positions left to right. -/

/-- Try to match the key regex exactly at the head of the input.
Returns the captured key and the remainder after the match. -/
def matchBibKeyAt : List Char → Option (List Char × List Char)
  | '@' :: r =>
    match r.takeWhile (fun c => c ≠ '{'), r.dropWhile (fun c => c ≠ '{') with
    | _ :: _, '{' :: r2 =>
      match r2.takeWhile (fun c => c ≠ ',' && c ≠ '}'),
            r2.dropWhile (fun c => c ≠ ',' && c ≠ '}') with
      | k0 :: ks, _ :: r3 => some (k0 :: ks, r3)
      | _, _ => none
    | _, _ => none
  | _ => none

theorem dropWhile_len_le (p : Char → Bool) (l : List Char) :
    (l.dropWhile p).length ≤ l.length := by
  induction l with
  | nil => simp
  | cons c cs ih =>
    by_cases h : p c
    · simp only [List.dropWhile_cons, h, if_true, List.length_cons]
      omega
    · simp [List.dropWhile_cons, h]

theorem matchBibKeyAt_rest_lt {l k r} (h : matchBibKeyAt l = some (k, r)) :
    r.length < l.length := by
  unfold matchBibKeyAt at h
  split at h
  case h_2 => exact absurd h (by simp)
  case h_1 cs =>
    split at h
    case h_2 => exact absurd h (by simp)
    case h_1 x tx r2 ht hd =>
      split at h
      case h_2 => exact absurd h (by simp)
      case h_1 y ty b2 r3 ht2 hd2 =>
        have h1 : r2.length < cs.length := by
          have := dropWhile_len_le (fun c => c ≠ '{') cs
          rw [hd] at this
          simp at this
          omega
        have h2 : r3.length < r2.length := by
          have := dropWhile_len_le (fun c => c ≠ ',' && c ≠ '}') r2
          rw [hd2] at this
          simp at this
          omega
        obtain ⟨-, hr⟩ := Prod.mk.injEq .. ▸ Option.some.injEq .. ▸ h
        subst hr
        simp only [List.length_cons]
        omega

/-- The global exec loop of the key regex: at each position try the full
pattern; on a match, record the trimmed capture and continue after the
match, otherwise advance one character.  The loop is written with an
explicit fuel argument so that it is structurally recursive and
kernel-evaluable; matchBibKeyAt_rest_lt shows every step strictly shortens
the input, so fuel equal to the input length is never exhausted. -/
def extractCitekeysF : Nat → List Char → List String
  | 0, _ => []
  | _, [] => []
  | fuel + 1, c :: cs =>
    match matchBibKeyAt (c :: cs) with
    | some (k, r) => strOf (trimChars k) :: extractCitekeysF fuel r
    | none => extractCitekeysF fuel cs

def extractCitekeys (l : List Char) : List String := extractCitekeysF l.length l

/-- JavaScript Set insertion order: keep the first occurrence of each key.
Fueled for the same reason as extractCitekeysF. -/
def dedupKeysF : Nat → List String → List String
  | 0, _ => []
  | _, [] => []
  | fuel + 1, k :: rest => k :: dedupKeysF fuel (rest.filter (fun x => x ≠ k))

def dedupKeys (l : List String) : List String := dedupKeysF l.length l

/-- The default comparison of JavaScript Array.sort on strings:
lexicographic by character code (code units and code points coincide on
the basic multilingual plane). -/
def jsLeChars : List Char → List Char → Bool
  | [], _ => true
  | _ :: _, [] => false
  | a :: as, b :: bs =>
    if a.toNat < b.toNat then true
    else if b.toNat < a.toNat then false
    else jsLeChars as bs

def jsLeStr (a b : String) : Prop := jsLeChars a.data b.data = true

instance : DecidableRel jsLeStr := fun a b =>
  inferInstanceAs (Decidable (jsLeChars a.data b.data = true))

theorem jsLeChars_total (a : List Char) : ∀ b, jsLeChars a b = true ∨ jsLeChars b a = true := by
  induction a with
  | nil => intro b; left; rfl
  | cons x xs ih =>
    intro b
    cases b with
    | nil => right; rfl
    | cons y ys =>
      by_cases h1 : x.toNat < y.toNat
      · left; simp [jsLeChars, h1]
      · by_cases h2 : y.toNat < x.toNat
        · right; simp [jsLeChars, h2]
        · rcases ih ys with h | h
          · left; simp [jsLeChars, h1, h2, h]
          · right; simp [jsLeChars, h1, h2, h]

theorem jsLeChars_trans (a : List Char) :
    ∀ b c, jsLeChars a b = true → jsLeChars b c = true → jsLeChars a c = true := by
  induction a with
  | nil => intro b c _ _; rfl
  | cons x xs ih =>
    intro b c h1 h2
    cases b with
    | nil => simp [jsLeChars] at h1
    | cons y ys =>
      cases c with
      | nil => simp [jsLeChars] at h2
      | cons z zs =>
        simp only [jsLeChars] at h1 h2 ⊢
        by_cases hxy : x.toNat < y.toNat
        · by_cases hyz : y.toNat < z.toNat
          · have hxz : x.toNat < z.toNat := by omega
            simp [hxz]
          · by_cases hzy : z.toNat < y.toNat
            · simp [hyz, hzy] at h2
            · have hxz : x.toNat < z.toNat := by omega
              simp [hxz]
        · by_cases hyx : y.toNat < x.toNat
          · simp [hxy, hyx] at h1
          · simp only [hxy, hyx, if_false] at h1
            by_cases hyz : y.toNat < z.toNat
            · have hxz : x.toNat < z.toNat := by omega
              simp [hxz]
            · by_cases hzy : z.toNat < y.toNat
              · simp [hyz, hzy] at h2
              · simp only [hyz, hzy, if_false] at h2
                have hxz : ¬x.toNat < z.toNat := by omega
                have hzx : ¬z.toNat < x.toNat := by omega
                simp only [hxz, hzx, if_false]
                exact ih ys zs h1 h2

instance : IsTotal String jsLeStr := ⟨fun a b => jsLeChars_total a.data b.data⟩

instance : IsTrans String jsLeStr := ⟨fun a b c => jsLeChars_trans a.data b.data c.data⟩

/-- allKeys of the import pass: Array.from(citekeySet).sort() — the
deduplicated keys of the bibliography in ascending lexical order. -/
def allKeysSorted (content : String) : List String :=
  List.insertionSort jsLeStr (dedupKeys (extractCitekeys content.data))

/-- newKeys of the import pass: allKeys.filter((k) => !imported[k]).
Note the truthiness test — a key recorded with the empty string passes
the filter. -/
def newKeysOf (content : String) (imported : List (String × String)) : List String :=
  (allKeysSorted content).filter (fun k => !truthyStr (imported.lookup k))

/-- Outcome of one runImport call for one citation key. -/
inductive ImportOutcome : Type
  | ok (paths : List String)
  | failed
deriving DecidableEq

/-- The loop body of the import pass for one key: on success record
paths[0] || '' in importedItems; on failure leave the record untouched. -/
def recordImport (imported : List (String × String)) (k : String) :
    ImportOutcome → List (String × String)
  | .ok paths => upsertA imported k (paths.head?.getD "")
  | .failed => imported

/-- One complete pass of detectAndImportNewCitations (equally of the loop
of importBbtCollection): compute newKeys and fold the per-key import
step over them, threading the importedItems record. -/
def runImportPass (content : String) (imported : List (String × String))
    (outcomes : String → ImportOutcome) : List (String × String) :=
  (newKeysOf content imported).foldl (fun imp k => recordImport imp k (outcomes k)) imported

/-! ## Bibliography field parser (bibSync module, src/unnamed/part_004 lines 3-21)

The entry regex captures the citation key (everything after the opening
brace up to the first comma) and a body consisting of every character up
to the next at sign or end of input.  The field regex inside a body
matches a letter run, optional spaces, an equals sign, optional spaces,
then either a braced or a double-quoted value.  Both patterns are
backtracking-free, so exec's leftmost-match search is again a left-to-right
scan of start positions. -/

/-- The key-and-body stage of the bibSync entry matcher, applied after the
opening brace: the non-empty comma-free key run, the comma, then the body
up to the next at sign. -/
def matchKeyCore (r2 : List Char) : Option (List Char × List Char × List Char) :=
  match r2.takeWhile (fun c => c ≠ ','), r2.dropWhile (fun c => c ≠ ',') with
  | k0 :: ks, _ :: r3 =>
    some (k0 :: ks, r3.takeWhile (fun c => c ≠ '@'), r3.dropWhile (fun c => c ≠ '@'))
  | _, _ => none

/-- The body of the bibSync entry matcher after the at sign: the
brace-free type run, the opening brace, then the key-and-body stage. -/
def matchEntryAtCore (r : List Char) : Option (List Char × List Char × List Char) :=
  match r.takeWhile (fun c => c ≠ '{'), r.dropWhile (fun c => c ≠ '{') with
  | _ :: _, '{' :: r2 => matchKeyCore r2
  | _, _ => none

/-- Try to match the bibSync entry regex at the head of the input; returns
(captured key, captured body, remainder). -/
def matchEntryAt : List Char → Option (List Char × List Char × List Char)
  | '@' :: r => matchEntryAtCore r
  | _ => none

theorem matchEntryAt_rest_lt {l k b r} (h : matchEntryAt l = some (k, b, r)) :
    r.length < l.length := by
  unfold matchEntryAt at h
  split at h
  case h_2 => exact absurd h (by simp)
  case h_1 cs =>
    unfold matchEntryAtCore at h
    split at h
    case h_2 => exact absurd h (by simp)
    case h_1 x tx r2 ht hd =>
      unfold matchKeyCore at h
      split at h
      case h_2 => exact absurd h (by simp)
      case h_1 y ty c0 r3 ht2 hd2 =>
        have h1 : r2.length < cs.length := by
          have := dropWhile_len_le (fun c => c ≠ '{') cs
          rw [hd] at this
          simp at this
          omega
        have h2 : r3.length < r2.length := by
          have := dropWhile_len_le (fun c => c ≠ ',') r2
          rw [hd2] at this
          simp at this
          omega
        have h3 : r.length ≤ r3.length := by
          simp only [Option.some.injEq, Prod.mk.injEq] at h
          obtain ⟨-, -, hr⟩ := h
          subst hr
          exact dropWhile_len_le _ r3
        simp only [List.length_cons]
        omega

/-- Try to match the bibSync field regex at the head of a body; returns
(captured name, captured value, remainder). -/
def matchFieldAt (l : List Char) : Option (List Char × List Char × List Char) :=
  match l.takeWhile asciiAlpha, (l.dropWhile asciiAlpha).dropWhile jsSpace with
  | n0 :: ns, '=' :: r2 =>
    match r2.dropWhile jsSpace with
    | '{' :: r3 =>
      match r3.dropWhile (fun c => c ≠ '}') with
      | _ :: r4 => some (n0 :: ns, r3.takeWhile (fun c => c ≠ '}'), r4)
      | [] => none
    | '"' :: r3 =>
      match r3.dropWhile (fun c => c ≠ '"') with
      | _ :: r4 => some (n0 :: ns, r3.takeWhile (fun c => c ≠ '"'), r4)
      | [] => none
    | _ => none
  | _, _ => none

theorem matchFieldAt_rest_lt {l n v r} (h : matchFieldAt l = some (n, v, r)) :
    r.length < l.length := by
  unfold matchFieldAt at h
  split at h
  case h_2 => exact absurd h (by simp)
  case h_1 x tx r2 ht hd =>
    have hr2 : r2.length < l.length := by
      cases l with
      | nil => rw [List.takeWhile_nil] at ht; exact absurd ht (by simp)
      | cons c cs =>
        by_cases hp : asciiAlpha c
        · have hdw : (c :: cs).dropWhile asciiAlpha = cs.dropWhile asciiAlpha := by
            rw [List.dropWhile_cons, if_pos hp]
          rw [hdw] at hd
          have h1 := dropWhile_len_le asciiAlpha cs
          have h2 := dropWhile_len_le jsSpace (cs.dropWhile asciiAlpha)
          rw [hd] at h2
          simp at h2
          simp only [List.length_cons]
          omega
        · rw [List.takeWhile_cons, if_neg hp] at ht
          exact absurd ht (by simp)
    split at h
    case h_3 => exact absurd h (by simp)
    case h_1 r3 hd3 =>
      split at h
      case h_2 => exact absurd h (by simp)
      case h_1 c0 r4 hd4 =>
        simp only [Option.some.injEq, Prod.mk.injEq] at h
        obtain ⟨-, -, hr⟩ := h
        subst hr
        have ha := dropWhile_len_le jsSpace r2
        rw [hd3] at ha
        have hb := dropWhile_len_le (fun c => c ≠ '}') r3
        rw [hd4] at hb
        simp at ha hb
        omega
    case h_2 r3 hd3 =>
      split at h
      case h_2 => exact absurd h (by simp)
      case h_1 c0 r4 hd4 =>
        simp only [Option.some.injEq, Prod.mk.injEq] at h
        obtain ⟨-, -, hr⟩ := h
        subst hr
        have ha := dropWhile_len_le jsSpace r2
        rw [hd3] at ha
        have hb := dropWhile_len_le (fun c => c ≠ '"') r3
        rw [hd4] at hb
        simp at ha hb
        omega

/-- The exec loop of the field regex over an entry body, accumulating the
metadata object: field names are lower-cased, obj[field] = value.
Fueled; matchFieldAt_rest_lt shows fuel equal to the body length suffices. -/
def scanFieldsF : Nat → List Char → List (String × String) → List (String × String)
  | 0, _, acc => acc
  | _, [], acc => acc
  | fuel + 1, c :: cs, acc =>
    match matchFieldAt (c :: cs) with
    | some (n, v, r) => scanFieldsF fuel r (upsertA acc (strOf (n.map Char.toLower)) (strOf v))
    | none => scanFieldsF fuel cs acc

def scanFields (l : List Char) : List (String × String) := scanFieldsF l.length l []

/-- The exec loop of the entry regex over the whole bibliography text:
map[citekey.trim()] = metadata parsed from the captured body.
Fueled; matchEntryAt_rest_lt shows fuel equal to the text length suffices. -/
def scanEntriesF : Nat → List Char → List (String × List (String × String)) →
    List (String × List (String × String))
  | 0, _, acc => acc
  | _, [], acc => acc
  | fuel + 1, c :: cs, acc =>
    match matchEntryAt (c :: cs) with
    | some (k, b, r) => scanEntriesF fuel r (upsertA acc (strOf (trimChars k)) (scanFields b))
    | none => scanEntriesF fuel cs acc

/-- parseBibToMetadataMap of the bibSync module: the map from citation key
to field map produced by the two regex scans. -/
def parseBibToMetadataMap (bibContent : String) : List (String × List (String × String)) :=
  scanEntriesF bibContent.data.length bibContent.data []

/-! ## Metadata differ (bibSync module, src/unnamed/part_004 lines 23-42) -/

/-- The changed fields of one entry: fields of newMeta whose value differs
from oldMeta's (a field absent from oldMeta always differs). -/
def changedFields (oldMeta newMeta : List (String × String)) : List (String × String) :=
  newMeta.filter (fun p => oldMeta.lookup p.1 ≠ some p.2)

/-- diffMetadata of the bibSync module: for every key of newMap collect the
changed fields against oldMap (absent old entry treated as empty); keys
with no changed field are omitted. -/
def diffMetadata (oldMap newMap : List (String × List (String × String))) :
    List (String × List (String × String)) :=
  newMap.filterMap (fun p =>
    let changed := changedFields ((oldMap.lookup p.1).getD []) p.2
    if changed.isEmpty then none else some (p.1, changed))

/-! ## Front-matter patcher (bibSync module, src/unnamed/part_004 lines 44-51)

patchFrontmatterContent delegates entirely to the gray-matter library:
parse the document, spread updatedFields over the parsed data object and
reserialize with matter.stringify.  The library is not part of this
repository, so its behavior is modelled here, restricted to the flat
string-to-string YAML mappings this plugin exchanges: the front-matter
block is delimited by a line of three dashes at the start of the text and
a newline-plus-three-dashes close; the YAML engine accepts blank lines,
comment lines and plain key: value lines with unquoted plain scalars, and
fails (as js-yaml throws) on a non-empty line without a colon after a
mapping line, on non-plain scalars outside the modelled subset and on
duplicated keys; stringify drops the block entirely when the merged data
is empty and appends a newline to the body when it does not end in one.
matter.stringify re-parses the content argument it is given, exactly as
the library does when handed a plain string. -/

/-- Does the text start a front-matter block: three dashes not followed by
a fourth (gray-matter rejects a longer dash run as a delimiter). -/
def opensBlock : List Char → Bool
  | '-' :: '-' :: '-' :: rest =>
    match rest with
    | '-' :: _ => false
    | _ => true
  | _ => false

/-- Head test for the closing delimiter, newline followed by three dashes. -/
def nlDashes : List Char → Bool
  | '\n' :: '-' :: '-' :: '-' :: _ => true
  | _ => false

/-- Index of the first occurrence of the closing delimiter. -/
def findClose : List Char → Option Nat
  | [] => none
  | c :: cs => if nlDashes (c :: cs) then some 0 else (findClose cs).map (· + 1)

/-- Plain YAML scalars of the modelled subset: starts with an ASCII
letter, made of alphanumerics, spaces, underscores, dashes, dots and
slashes, and not a YAML 1.1 boolean/null word (which js-yaml would load
as a non-string). -/
def plainScalar (l : List Char) : Bool :=
  match l with
  | [] => false
  | c :: _ =>
    asciiAlpha c && l.all (fun x => x.isAlphanum || x = ' ' || x = '_' || x = '-'
      || x = '.' || x = '/') &&
    !(let w := strOf (l.map Char.toLower)
      w = "true" || w = "false" || w = "null" || w = "yes" || w = "no"
        || w = "on" || w = "off")

/-- Split a line at its first colon. -/
def splitAtColon (l : List Char) : Option (List Char × List Char) :=
  match l.dropWhile (fun c => c ≠ ':') with
  | ':' :: rest => some (l.takeWhile (fun c => c ≠ ':'), rest)
  | _ => none

/-- Parse one line of a front-matter block: blank and comment lines yield
nothing, a plain key: value line yields a pair, anything else is a parse
error (js-yaml throws on such blocks). -/
def yamlLine (line : List Char) : Except String (Option (String × String)) :=
  let t := trimChars line
  if t = [] then .ok none
  else if t.head? = some '#' then .ok none
  else
    match splitAtColon t with
    | none => .error "can not read a block mapping entry"
    | some (k, v) =>
      let k := trimChars k
      let v := trimChars v
      if plainScalar k && plainScalar v then .ok (some (strOf k, strOf v))
      else .error "scalar outside the modelled plain subset"

/-- Parse all lines of a block. -/
def yamlLines : List (List Char) → Except String (List (String × String))
  | [] => .ok []
  | ln :: rest => do
    let h ← yamlLine ln
    let tl ← yamlLines rest
    match h with
    | none => .ok tl
    | some p => .ok (p :: tl)

/-- The modelled YAML load of a front-matter block, failing on duplicate
keys as js-yaml does. -/
def yamlParse (m : List Char) : Except String (List (String × String)) := do
  let ps ← yamlLines (m.splitOn '\n')
  if (ps.map Prod.fst).Nodup then .ok ps else .error "duplicated mapping key"

/-- Result of gray-matter's parse: the data object of the block and the
content after it. -/
structure GmFile where
  data : List (String × String)
  content : String
deriving DecidableEq, Repr

/-- Strip one carriage return and then one newline from the head, as
gray-matter does after the closing delimiter. -/
def stripNl (l : List Char) : List Char :=
  let l1 := match l with
    | '\r' :: t => t
    | _ => l
  match l1 with
  | '\n' :: t => t
  | _ => l1

/-- Model of matter(text): no opening delimiter (or a four-dash run)
leaves the whole text as content with empty data; otherwise the block runs
to the first newline-dashes close (or to end of input, in which case the
content is empty), and the data is the YAML load of the block.  A non-empty
language tag after the opening delimiter selects an engine this model does
not provide, an error in the library as well for any tag it does not know. -/
def matterParse (s : String) : Except String GmFile :=
  let l := s.data
  if opensBlock l then
    let r := l.drop 3
    if trimChars (r.takeWhile (fun c => c ≠ '\n')) ≠ [] then
      .error "front-matter engine not available in the model"
    else
      match findClose r with
      | none => do
        let d ← yamlParse r
        .ok ⟨d, ""⟩
      | some i => do
        let d ← yamlParse (r.take i)
        .ok ⟨d, strOf (stripNl (r.drop (i + 4)))⟩
  else .ok ⟨[], s⟩

/-- JavaScript object spread of two objects: keys of a keep their position
with values overridden by b where present; keys only in b are appended in
b's order. -/
def assign (a b : List (String × String)) : List (String × String) :=
  a.map (fun p => (p.1, (b.lookup p.1).getD p.2)) ++
    b.filter (fun q => (a.lookup q.1).isNone)

/-- First-of-two option choice, the shape of lookups in a spread object. -/
def orElseO (a b : Option String) : Option String :=
  match a with
  | some v => some v
  | none => b

/-- The modelled js-yaml dump of a flat string map: one key: value line
per pair, and the empty flow mapping for the empty object. -/
def yamlDump (d : List (String × String)) : String :=
  if d.isEmpty then "\x7b\x7d"
  else String.intercalate "\n" (d.map (fun p => p.1 ++ ": " ++ p.2))

def trimString (s : String) : String := strOf (trimChars s.data)

/-- JavaScript newline(str) of gray-matter's stringify: append a newline
unless the string already ends with one. -/
def jsNewline (s : String) : String :=
  match s.data.getLast? with
  | some '\n' => s
  | _ => s ++ "\n"

/-- The document produced by gray-matter's stringify from a merged data
object and a content string: no block at all when the dumped matter is the
empty flow mapping, and the content passed through newline(). -/
def gmRender (d : List (String × String)) (content : String) : String :=
  (if trimString (yamlDump d) = "\x7b\x7d" then ""
   else "---\n" ++ trimString (yamlDump d) ++ "\n" ++ "---\n") ++ jsNewline content

/-- matter.stringify(content, data) with a string first argument: the
string is re-parsed for front-matter, its data spread under the passed
data, and the document re-rendered around the re-parsed content. -/
def gmStringify (content : String) (d : List (String × String)) : Except String String := do
  let f ← matterParse content
  .ok (gmRender (assign f.data d) f.content)

/-- patchFrontmatterContent of the bibSync module: parse the document,
spread updatedFields over the parsed data and reserialize. -/
def patchFrontmatterContent (fileContent : String) (updatedFields : List (String × String)) :
    Except String String := do
  let parsed ← matterParse fileContent
  gmStringify parsed.content (assign parsed.data updatedFields)

/-! ## Annotation change detection (src/bbt/annotationCache.ts lines 81-144)

Cache entries carry precomputed hashes (md5 strings in the source); the
change detector only ever compares those hash strings, so the hashes are
embedded as opaque string fields. -/

/-- AnnotationSnapshot of src/types.ts: one annotation's cached state.
The combined hash of an entry is computed from id, annType, content,
pageLabel and color only — dateModified and imagePath are excluded. -/
structure AnnSnapshot where
  id : String
  annType : String
  content : String
  contentHash : String
  dateModified : String
  pageLabel : Option String
  color : Option String
  imagePath : Option String
deriving DecidableEq, Repr

/-- AnnotationCacheEntry of src/types.ts. -/
structure AnnCacheEntry where
  citekey : String
  lastChecked : Nat
  annotationCount : Nat
  annotations : List AnnSnapshot
  contentHash : String
deriving DecidableEq, Repr

/-- The record returned by AnnotationCacheManager.detectChanges. -/
structure AnnChanges where
  hasChanges : Bool
  newAnnotations : List AnnSnapshot
  modifiedAnnotations : List AnnSnapshot
  deletedAnnotations : List AnnSnapshot
deriving DecidableEq, Repr

/-- JavaScript Map built from a list of (id, snapshot) pairs: on duplicate
ids the later insertion wins, so lookup scans the reversed list. -/
def jsMapGet (l : List AnnSnapshot) (k : String) : Option AnnSnapshot :=
  (l.reverse.map (fun a => (a.id, a))).lookup k

/-- AnnotationCacheManager.detectChanges: an absent old entry makes every
annotation new; equal combined hashes short-circuit to no changes; else
one pass over the new annotations classifies new/modified by id and hash,
and one pass over the old annotations collects deletions. -/
def detectChanges (oldEntry : Option AnnCacheEntry) (newEntry : AnnCacheEntry) : AnnChanges :=
  match oldEntry with
  | none =>
    { hasChanges := !newEntry.annotations.isEmpty
      newAnnotations := newEntry.annotations
      modifiedAnnotations := []
      deletedAnnotations := [] }
  | some o =>
    if o.contentHash = newEntry.contentHash then
      { hasChanges := false
        newAnnotations := []
        modifiedAnnotations := []
        deletedAnnotations := [] }
    else
      let newAnns := newEntry.annotations.filter
        (fun a => (jsMapGet o.annotations a.id).isNone)
      let modAnns := newEntry.annotations.filter (fun a =>
        match jsMapGet o.annotations a.id with
        | some oldA => oldA.contentHash ≠ a.contentHash
        | none => false)
      let delAnns := o.annotations.filter
        (fun a => (jsMapGet newEntry.annotations a.id).isNone)
      { hasChanges := !newAnns.isEmpty || !modAnns.isEmpty || !delAnns.isEmpty
        newAnnotations := newAnns
        modifiedAnnotations := modAnns
        deletedAnnotations := delAnns }

/-! ## Watch debounce (src/main.ts lines 577-588)

The change handler is obsidian's debounce(cb, this.settings.bibWatchDebounce
|| 500) with the third resetTimer argument omitted, hence false: a call
arriving while the timer is pending is swallowed without rescheduling, and
the callback fires when the timer set by the first call of the burst
expires.  The model replays a chronological list of event times against
the pending deadline and returns the list of firing times. -/

/-- The effective debounce window: JavaScript x || 500 on the setting
(0 and an absent setting are falsy). -/
def effectiveDebounceMs (setting : Option Nat) : Nat :=
  match setting with
  | some n => if n = 0 then 500 else n
  | none => 500

/-- Replay event times (ascending) through the non-resetting debouncer:
with no pending timer an event at t arms a deadline t + w; an event before
a pending deadline is swallowed; a deadline at or before the next event
fires first and that event then arms a fresh deadline; a pending deadline
at end of input fires. -/
def debounceFires (w : Nat) : List Nat → Option Nat → List Nat
  | [], some d => [d]
  | [], none => []
  | t :: ts, none => debounceFires w ts (some (t + w))
  | t :: ts, some d =>
    if d ≤ t then d :: debounceFires w ts (some (t + w))
    else debounceFires w ts (some d)

/-! ## Reentrancy guard of the annotation check pass
(src/main.ts lines 822-856 and the command callback at lines 229-239)

checkForAnnotationChanges tests and sets the isMonitoringAnnotations flag
synchronously (no suspension point between the test and the set), runs its
body, and resets the flag in a finally block; the try block updates the
cache and, on reaching its end, lastAnnotationCheck.  The guard is modelled
as a two-phase state machine — begin and finish — whose phases may
interleave arbitrarily with further triggers, plus a ghost counter of
passes currently executing. -/

/-- The plugin state the guarded pass touches. -/
structure MonitorState where
  isMonitoringAnnotations : Bool
  lastAnnotationCheck : Nat
  annotationCache : List (String × AnnCacheEntry)
deriving DecidableEq, Repr

/-- How far the body of one pass got: completed (cache updated, timestamp
taken at now) or aborted by an error after possibly updating the cache
(the catch block swallows the error; lastAnnotationCheck is not reached). -/
inductive PassOutcome : Type
  | completed (cache : List (String × AnnCacheEntry)) (now : Nat)
  | aborted (cache : List (String × AnnCacheEntry))
deriving DecidableEq

/-- The guard test-and-set at the top of checkForAnnotationChanges: a set
flag makes the trigger a silent no-op, otherwise the flag is raised. -/
def tryBeginCheck (st : MonitorState) : MonitorState × Bool :=
  if st.isMonitoringAnnotations then (st, false)
  else ({ st with isMonitoringAnnotations := true }, true)

/-- The end of a pass: apply the body's effects and reset the flag in the
finally block, whether the body completed or aborted. -/
def finishCheck (st : MonitorState) : PassOutcome → MonitorState
  | .completed cache now =>
    { st with annotationCache := cache, lastAnnotationCheck := now,
              isMonitoringAnnotations := false }
  | .aborted cache =>
    { st with annotationCache := cache, isMonitoringAnnotations := false }

/-- One whole uninterleaved call of checkForAnnotationChanges. -/
def checkForAnnChanges (st : MonitorState) (oc : PassOutcome) : MonitorState × Bool :=
  if st.isMonitoringAnnotations then (st, false)
  else (finishCheck { st with isMonitoringAnnotations := true } oc, true)

/-- Configurations of the guarded system: the plugin state plus the ghost
count of passes currently executing. -/
inductive MonStep : MonitorState × Nat → MonitorState × Nat → Prop where
  | triggerSkip (st : MonitorState) (n : Nat) :
      st.isMonitoringAnnotations = true → MonStep (st, n) (st, n)
  | triggerRun (st : MonitorState) (n : Nat) :
      st.isMonitoringAnnotations = false →
      MonStep (st, n) ({ st with isMonitoringAnnotations := true }, n + 1)
  | finish (st : MonitorState) (n : Nat) (oc : PassOutcome) :
      MonStep (st, n + 1) (finishCheck st oc, n)

/-- Reachability from the freshly loaded plugin (flag false, no pass
running). -/
inductive MonReach : MonitorState × Nat → Prop where
  | init (lc : Nat) (cache : List (String × AnnCacheEntry)) :
      MonReach (⟨false, lc, cache⟩, 0)
  | step {c c' : MonitorState × Nat} : MonReach c → MonStep c c' → MonReach c'

/-! ## Association-list lemmas -/

theorem lookup_append {α : Type} (l₁ l₂ : List (String × α)) (k : String) :
    (l₁ ++ l₂).lookup k =
      match l₁.lookup k with
      | some v => some v
      | none => l₂.lookup k := by
  induction l₁ with
  | nil => simp
  | cons p l ih =>
    obtain ⟨a, b⟩ := p
    by_cases h : k = a
    · subst h
      simp [List.lookup]
    · have hb : (k == a) = false := by simp [h]
      simp [List.lookup, hb, ih]

theorem lookup_map_values {α : Type} (g : String → α → α) (l : List (String × α))
    (k : String) :
    (l.map (fun p => (p.1, g p.1 p.2))).lookup k = (l.lookup k).map (g k) := by
  induction l with
  | nil => simp
  | cons p l ih =>
    obtain ⟨a, b⟩ := p
    by_cases h : k = a
    · subst h
      simp [List.lookup]
    · have hb : (k == a) = false := by simp [h]
      simp [List.lookup, hb, ih]

theorem lookup_filter_of_true {α : Type} {p : String × α → Bool} {k : String}
    (hk : ∀ v, p (k, v) = true) (l : List (String × α)) :
    (l.filter p).lookup k = l.lookup k := by
  induction l with
  | nil => simp
  | cons q l ih =>
    obtain ⟨a, b⟩ := q
    by_cases h : k = a
    · subst h
      simp [List.filter, hk b, List.lookup]
    · have hb : (k == a) = false := by simp [h]
      by_cases hp : p (a, b) = true
      · simp [List.filter, hp, List.lookup, hb, ih]
      · simp only [Bool.not_eq_true] at hp
        simp [List.filter, hp, List.lookup, hb, ih]

theorem lookup_mem {α : Type} {l : List (String × α)} {k : String} {v : α}
    (h : l.lookup k = some v) : (k, v) ∈ l := by
  induction l with
  | nil => simp at h
  | cons p l ih =>
    obtain ⟨a, b⟩ := p
    by_cases he : k = a
    · subst he
      simp [List.lookup] at h
      simp [h]
    · have hb : (k == a) = false := by simp [he]
      simp [List.lookup, hb] at h
      simp [ih h]

theorem lookup_of_mem_nodup {α : Type} {l : List (String × α)} {k : String} {v : α}
    (hnd : (l.map Prod.fst).Nodup) (h : (k, v) ∈ l) : l.lookup k = some v := by
  induction l with
  | nil => simp at h
  | cons p l ih =>
    obtain ⟨a, b⟩ := p
    simp only [List.map_cons, List.nodup_cons] at hnd
    rcases List.mem_cons.mp h with h' | h'
    · obtain ⟨rfl, rfl⟩ := Prod.mk.injEq .. ▸ h'
      simp [List.lookup]
    · have hka : k ≠ a := by
        intro he
        subst he
        exact hnd.1 (List.mem_map.mpr ⟨(k, v), h', rfl⟩)
      have hb : (k == a) = false := by simp [hka]
      simp [List.lookup, hb, ih hnd.2 h']

theorem lookup_eq_none_iff {α : Type} (l : List (String × α)) (k : String) :
    l.lookup k = none ↔ k ∉ l.map Prod.fst := by
  induction l with
  | nil => simp
  | cons p l ih =>
    obtain ⟨a, b⟩ := p
    by_cases h : k = a
    · subst h
      simp [List.lookup]
    · have hb : (k == a) = false := by simp [h]
      simp [List.lookup, hb, ih, h]

theorem lookup_filter_some {α : Type} {l : List (String × α)} {p : String × α → Bool}
    {k : String} {v : α} (hnd : (l.map Prod.fst).Nodup)
    (h : (l.filter p).lookup k = some v) : l.lookup k = some v :=
  lookup_of_mem_nodup hnd (List.mem_of_mem_filter (lookup_mem h))

/-! ## The differ: characterization and the C3 property -/

theorem diffMetadata_cons (o : List (String × List (String × String)))
    (ck : String) (m : List (String × String))
    (n : List (String × List (String × String))) :
    diffMetadata o ((ck, m) :: n) =
      (if changedFields ((o.lookup ck).getD []) m = [] then diffMetadata o n
       else (ck, changedFields ((o.lookup ck).getD []) m) :: diffMetadata o n) := by
  by_cases hch : changedFields ((o.lookup ck).getD []) m = []
  · simp [diffMetadata, List.filterMap_cons, List.isEmpty_iff, hch]
  · simp [diffMetadata, List.filterMap_cons, List.isEmpty_iff, hch]

theorem diffMetadata_lookup (o : List (String × List (String × String))) :
    ∀ (n : List (String × List (String × String))) (k : String),
      (n.map Prod.fst).Nodup →
      (diffMetadata o n).lookup k =
        (n.lookup k).bind (fun m =>
          if changedFields ((o.lookup k).getD []) m = [] then none
          else some (changedFields ((o.lookup k).getD []) m)) := by
  intro n
  induction n with
  | nil => intro k _; simp [diffMetadata]
  | cons p n ih =>
    intro k hnd
    obtain ⟨ck, m⟩ := p
    simp only [List.map_cons, List.nodup_cons] at hnd
    rw [diffMetadata_cons]
    by_cases hk : k = ck
    · subst hk
      by_cases hch : changedFields ((o.lookup k).getD []) m = []
      · rw [if_pos hch, ih k hnd.2, (lookup_eq_none_iff n k).mpr hnd.1]
        simp [List.lookup, hch]
      · rw [if_neg hch]
        simp [List.lookup, hch]
    · have hb : (k == ck) = false := by simp [hk]
      by_cases hch : changedFields ((o.lookup ck).getD []) m = []
      · rw [if_pos hch, ih k hnd.2]
        simp [List.lookup, hb]
      · rw [if_neg hch]
        simp [List.lookup, hb, ih k hnd.2]

/-- C3: diffMetadata contains a key iff at least one field of the new
entry differs (exact string comparison, a key absent from the old map
treated as an empty field map); every reported field's value equals the
new entry's value for that field (so deleted fields and keys only in the
old map are never reported), and no key maps to an empty field map. -/
theorem diffMetadata_correct (o n : List (String × List (String × String)))
    (hn : (n.map Prod.fst).Nodup)
    (hm : ∀ p ∈ n, (p.2.map Prod.fst).Nodup) (k : String) :
    ((diffMetadata o n).lookup k ≠ none ↔
      ∃ m, n.lookup k = some m ∧
        ∃ q ∈ m, ((o.lookup k).getD []).lookup q.1 ≠ some q.2)
    ∧ (∀ fm, (diffMetadata o n).lookup k = some fm →
        fm ≠ [] ∧ ∃ m, n.lookup k = some m ∧
          ∀ f v, fm.lookup f = some v → m.lookup f = some v) := by
  rw [diffMetadata_lookup o n k hn]
  cases hnk : n.lookup k with
  | none => simp
  | some m =>
    have hmem : (k, m) ∈ n := lookup_mem hnk
    have hmnd : (m.map Prod.fst).Nodup := hm (k, m) hmem
    have hbind : ((some m).bind fun mm =>
        if changedFields ((o.lookup k).getD []) mm = [] then none
        else some (changedFields ((o.lookup k).getD []) mm)) =
        (if changedFields ((o.lookup k).getD []) m = [] then none
         else some (changedFields ((o.lookup k).getD []) m)) := rfl
    rw [hbind]
    constructor
    · by_cases hch : changedFields ((o.lookup k).getD []) m = []
      · rw [if_pos hch]
        unfold changedFields at hch
        rw [List.filter_eq_nil_iff] at hch
        simp only [ne_eq, not_true_eq_false, false_iff, not_exists]
        intro m' hm'
        obtain rfl : m = m' := Option.some.injEq .. ▸ hm'.1
        obtain ⟨q, hq, hne⟩ := hm'.2
        have := hch q hq
        simp only [decide_eq_true_eq, not_not] at this
        exact hne this
      · rw [if_neg hch]
        simp only [ne_eq, reduceCtorEq, not_false_eq_true, true_iff]
        refine ⟨m, rfl, ?_⟩
        obtain ⟨q, hq⟩ := List.exists_mem_of_ne_nil _ hch
        refine ⟨q, List.mem_of_mem_filter hq, ?_⟩
        have := List.of_mem_filter hq
        simpa using this
    · intro fm hfm
      by_cases hch : changedFields ((o.lookup k).getD []) m = []
      · rw [if_pos hch] at hfm
        exact absurd hfm (by simp)
      · rw [if_neg hch] at hfm
        rw [Option.some.injEq] at hfm
        subst hfm
        obtain ⟨q, hq⟩ := List.exists_mem_of_ne_nil _ hch
        refine ⟨List.ne_nil_of_mem hq, m, rfl, ?_⟩
        intro f v hfv
        exact lookup_filter_some hmnd hfv

/-- Witness for diffMetadata_correct at the concrete maps of the repo's
Jest test: the added key k3 is reported. -/
theorem diffMetadata_correct_w :
    (diffMetadata [("k1", [("a", "1"), ("b", "2")]), ("k2", [("x", "y")])]
      [("k1", [("a", "1"), ("b", "3")]), ("k2", [("x", "y")]), ("k3", [("z", "z")])]).lookup
      "k3" ≠ none :=
  (diffMetadata_correct
    [("k1", [("a", "1"), ("b", "2")]), ("k2", [("x", "y")])]
    [("k1", [("a", "1"), ("b", "3")]), ("k2", [("x", "y")]), ("k3", [("z", "z")])]
    (by decide) (by decide) "k3").1.mpr
    ⟨[("z", "z")], rfl, ("z", "z"), by decide, by decide⟩

/-! ## C10: consistency of detectChanges -/

/-- C10: detectChanges reports hasChanges exactly when at least one of the
three returned lists is non-empty; and whenever the old entry is present
with a combined content hash equal to the new entry's, the result is the
empty no-change record — regardless of every other field of the entries,
in particular of dateModified and imagePath, which the hash computation
excludes. -/
theorem detectChanges_consistent (oldE : Option AnnCacheEntry) (newE : AnnCacheEntry) :
    ((detectChanges oldE newE).hasChanges = true ↔
      ¬((detectChanges oldE newE).newAnnotations = [] ∧
        (detectChanges oldE newE).modifiedAnnotations = [] ∧
        (detectChanges oldE newE).deletedAnnotations = []))
    ∧ (∀ o, oldE = some o → o.contentHash = newE.contentHash →
        detectChanges oldE newE = ⟨false, [], [], []⟩) := by
  cases oldE with
  | none =>
    constructor
    · simp [detectChanges, List.isEmpty_iff]
    · intro o ho
      exact absurd ho (by simp)
  | some o =>
    by_cases hh : o.contentHash = newE.contentHash
    · constructor
      · simp [detectChanges, hh]
      · intro o' ho' hh'
        simp [detectChanges, hh]
    · have hgen : ∀ (a b c : List AnnSnapshot),
          ((!a.isEmpty || !b.isEmpty || !c.isEmpty) = true ↔
            ¬(a = [] ∧ b = [] ∧ c = [])) := by
        intro a b c
        cases a <;> cases b <;> cases c <;> simp
      constructor
      · simp only [detectChanges, hh, if_false, reduceIte]
        exact hgen _ _ _
      · intro o' ho' hh'
        obtain rfl : o = o' := Option.some.injEq .. ▸ ho'
        exact absurd hh' hh

/-- Witness for detectChanges_consistent: two concrete entries with equal
hashes but different dateModified and imagePath fields produce the
no-change record. -/
theorem detectChanges_consistent_w :
    detectChanges (some ⟨"k", 1, 1,
        [⟨"a1", "highlight", "text", "h1", "2024-01-01", none, none, none⟩], "H"⟩)
      ⟨"k", 2, 1, [⟨"a1", "highlight", "text", "h1", "2024-02-02", none, none, some "img"⟩],
        "H"⟩ = ⟨false, [], [], []⟩ :=
  (detectChanges_consistent
    (some ⟨"k", 1, 1, [⟨"a1", "highlight", "text", "h1", "2024-01-01", none, none, none⟩], "H"⟩)
    ⟨"k", 2, 1, [⟨"a1", "highlight", "text", "h1", "2024-02-02", none, none, some "img"⟩],
      "H"⟩).2 _ rfl rfl

/-! ## C9: the reentrancy guard -/

theorem monReach_inv {c : MonitorState × Nat} (h : MonReach c) :
    c.2 ≤ 1 ∧ (c.1.isMonitoringAnnotations = true ↔ c.2 = 1) := by
  induction h with
  | init lc cache => simp
  | step hr hs ih =>
    cases hs with
    | triggerSkip st n hflag => exact ih
    | triggerRun st n hflag =>
      obtain ⟨hle, hiff⟩ := ih
      have hn : n = 0 := by
        rcases Nat.lt_or_ge n 1 with h1 | h1
        · omega
        · have h2 : n = 1 := by omega
          rw [hiff.mpr h2] at hflag
          exact absurd hflag (by simp)
      subst hn
      simp
    | finish st n oc =>
      obtain ⟨hle, hiff⟩ := ih
      have hn : n = 0 := by omega
      subst hn
      refine ⟨by omega, ?_⟩
      cases oc <;> simp [finishCheck]

/-- C9: in every reachable configuration at most one annotation-check pass
is executing; a trigger arriving while the in-progress flag is set returns
immediately with the state unchanged (a silent no-op); and the finally
block resets the flag on completion, for the completed and the aborted
outcome alike. -/
theorem annotationCheck_guard (c : MonitorState × Nat) (hc : MonReach c)
    (st : MonitorState) (oc : PassOutcome) :
    c.2 ≤ 1
    ∧ (st.isMonitoringAnnotations = true → checkForAnnChanges st oc = (st, false))
    ∧ (finishCheck st oc).isMonitoringAnnotations = false := by
  refine ⟨(monReach_inv hc).1, fun h => by simp [checkForAnnChanges, h], ?_⟩
  cases oc <;> simp [finishCheck]

/-- Witness for annotationCheck_guard: the initial configuration and a
state with the flag set, with an aborted pass outcome. -/
theorem annotationCheck_guard_w :
    ((⟨false, 0, []⟩, 0) : MonitorState × Nat).2 ≤ 1
    ∧ checkForAnnChanges ⟨true, 5, []⟩ (.aborted []) = (⟨true, 5, []⟩, false)
    ∧ (finishCheck ⟨true, 5, []⟩ (.aborted [])).isMonitoringAnnotations = false := by
  have h := annotationCheck_guard (⟨false, 0, []⟩, 0) (MonReach.init 0 [])
    ⟨true, 5, []⟩ (.aborted [])
  exact ⟨h.1, h.2.1 rfl, h.2.2⟩

/-! ## C4 and C1: new-entry detection and the import pass -/

theorem truthyStr_eq_false_iff (o : Option String) :
    truthyStr o = false ↔ ∀ v, o = some v → v = "" := by
  cases o with
  | none => simp [truthyStr]
  | some v => simp [truthyStr]

/-- C4 counterexample: a key recorded in importedItems with the
empty-string placeholder is still attempted — the attempted set is not
the set difference of the bibliography keys minus the recorded keys. -/
theorem newKeys_not_set_difference :
    newKeysOf "@article\x7ba,\x7d" [("a", "")] = ["a"]
    ∧ List.lookup "a" [("a", "")] = some "" := by
  exact ⟨rfl, rfl⟩

/-- C4 (amended): the import pass attempts exactly the bibliography's
extracted keys, in ascending lexical order, minus the keys recorded
in importedItems with a non-empty path — a key recorded with the empty
string placeholder is attempted again; on the spec's instance where the record
maps a to /notes/a.md and the bibliography has keys a, b, c it attempts
exactly b then c. -/
theorem newEntryDetection_amended :
    (∀ c imp, List.Sorted jsLeStr (newKeysOf c imp))
    ∧ (∀ (c : String) (imp : List (String × String)) (k : String),
        k ∈ newKeysOf c imp ↔
          (k ∈ allKeysSorted c ∧ ∀ v, imp.lookup k = some v → v = ""))
    ∧ newKeysOf "@article\x7ba,\x7d\n@article\x7bb,\x7d\n@article\x7bc,\x7d"
        [("a", "/notes/a.md")] = ["b", "c"] := by
  refine ⟨fun c imp => ?_, fun c imp k => ?_, by decide⟩
  · exact (List.sorted_insertionSort jsLeStr _).filter _
  · unfold newKeysOf
    rw [List.mem_filter]
    rw [Bool.not_eq_true']
    rw [truthyStr_eq_false_iff]

/-- Witness for newEntryDetection_amended: key b is attempted on the
spec's instance. -/
theorem newEntryDetection_amended_w :
    "b" ∈ newKeysOf "@article\x7ba,\x7d\n@article\x7bb,\x7d\n@article\x7bc,\x7d"
      [("a", "/notes/a.md")] :=
  (newEntryDetection_amended.2.1 _ [("a", "/notes/a.md")] "b").mpr
    ⟨by decide, fun v hv => nomatch hv⟩

/-- C1: evaluation at the failing input.  A first complete pass over a
bibliography with the single key a, whose import succeeds but produces no
file, records the empty-string placeholder; running the pass again with
the bibliography unchanged attempts the key a a second time instead of
performing zero imports. -/
theorem importPass_empty_placeholder_reimported :
    runImportPass "@article\x7ba,\x7d" [] (fun _ => ImportOutcome.ok []) = [("a", "")]
    ∧ newKeysOf "@article\x7ba,\x7d" [("a", "")] = ["a"] := by
  exact ⟨rfl, rfl⟩

/-! ## C5 and C6: the entry recognizer and parser robustness -/

theorem takeWhile_append_of_all {p : Char → Bool} {t : List Char}
    (h : ∀ c ∈ t, p c = true) (r : List Char) :
    (t ++ r).takeWhile p = t ++ r.takeWhile p := by
  induction t with
  | nil => simp
  | cons x xs ih =>
    have hx := h x (List.mem_cons_self x xs)
    simp only [List.cons_append, List.takeWhile_cons, hx, if_true]
    rw [ih (fun c hc => h c (List.mem_cons_of_mem x hc))]

theorem dropWhile_append_of_all {p : Char → Bool} {t : List Char}
    (h : ∀ c ∈ t, p c = true) (r : List Char) :
    (t ++ r).dropWhile p = r.dropWhile p := by
  induction t with
  | nil => simp
  | cons x xs ih =>
    have hx := h x (List.mem_cons_self x xs)
    simp only [List.cons_append, List.dropWhile_cons, hx, if_true]
    exact ih (fun c hc => h c (List.mem_cons_of_mem x hc))

theorem dropWhile_head_false {p : Char → Bool} {l : List Char} {c : Char} {r : List Char}
    (h : l.dropWhile p = c :: r) : p c = false := by
  induction l with
  | nil => simp at h
  | cons x xs ih =>
    by_cases hx : p x
    · rw [List.dropWhile_cons, if_pos hx] at h
      exact ih h
    · rw [List.dropWhile_cons, if_neg hx] at h
      obtain ⟨rfl, -⟩ := List.cons.injEq .. ▸ h
      simpa using hx

/-- C5 (amended): the bibSync entry recognizer matches exactly the shape
at sign, non-empty brace-free type, opening brace, non-empty comma-free
key, comma, then a body running to the next at sign or end of input — NOT
to the next entry marker; consequently, on a bibliography whose first
field value embeds an at sign, the fields after it are absent from that
entry's field map. -/
theorem entryBoundary_amended :
    (∀ (l k b rest : List Char),
      matchEntryAt l = some (k, b, rest) ↔
        ∃ t, t ≠ [] ∧ (∀ c ∈ t, c ≠ '{') ∧ k ≠ [] ∧ (∀ c ∈ k, c ≠ ',') ∧
          (∀ c ∈ b, c ≠ '@') ∧ (rest = [] ∨ rest.head? = some '@') ∧
          l = '@' :: (t ++ '{' :: (k ++ ',' :: (b ++ rest))))
    ∧ parseBibToMetadataMap "@a\x7bk1,x=\x7bp@q\x7d,title=\x7bT\x7d\x7d"
        = [("k1", [])] := by
  refine ⟨fun l k b rest => ⟨?_, ?_⟩, rfl⟩
  · intro h
    unfold matchEntryAt at h
    split at h
    case h_2 => exact absurd h (by simp)
    case h_1 cs =>
      unfold matchEntryAtCore at h
      split at h
      case h_2 => exact absurd h (by simp)
      case h_1 x tx r2 ht hd =>
        unfold matchKeyCore at h
        split at h
        case h_2 => exact absurd h (by simp)
        case h_1 y ty c0 r3 ht2 hd2 =>
          simp only [Option.some.injEq, Prod.mk.injEq] at h
          obtain ⟨hk, hbb, hrr⟩ := h
          refine ⟨x :: tx, by simp, ?_, ?_, ?_, ?_, ?_, ?_⟩
          · intro c hc
            have := List.mem_takeWhile_imp (ht ▸ hc)
            simpa using this
          · rw [← hk]; simp
          · intro c hc
            rw [← hk] at hc
            have := List.mem_takeWhile_imp (ht2 ▸ hc)
            simpa using this
          · intro c hc
            rw [← hbb] at hc
            have := List.mem_takeWhile_imp hc
            simpa using this
          · rcases hr : r3.dropWhile (fun c => c ≠ '@') with _ | ⟨c1, r4⟩
            · left; rw [← hrr, hr]
            · right
              rw [← hrr, hr]
              have := dropWhile_head_false hr
              simp only [List.head?_cons, Option.some.injEq]
              simpa using this
          · have hcs : cs = (x :: tx) ++ '{' :: r2 := by
              rw [← ht, ← hd]
              exact (List.takeWhile_append_dropWhile ..).symm
            have hc0 : c0 = ',' := by
              have := dropWhile_head_false hd2
              simpa using this
            rw [hc0] at hd2
            have hr2 : r2 = (y :: ty) ++ ',' :: r3 := by
              rw [← ht2, ← hd2]
              exact (List.takeWhile_append_dropWhile ..).symm
            have hr3 : r3 = b ++ rest := by
              rw [← hbb, ← hrr]
              exact (List.takeWhile_append_dropWhile ..).symm
            rw [hcs, hr2, ← hr3, ← hk]
  · rintro ⟨t, htne, htmem, hkne, hkmem, hbmem, hrest, rfl⟩
    have htw1 : (t ++ '{' :: (k ++ ',' :: (b ++ rest))).takeWhile (fun c => c ≠ '{') = t := by
      rw [takeWhile_append_of_all (fun c hc => by simpa using htmem c hc)]
      simp
    have hdw1 : (t ++ '{' :: (k ++ ',' :: (b ++ rest))).dropWhile (fun c => c ≠ '{')
        = '{' :: (k ++ ',' :: (b ++ rest)) := by
      rw [dropWhile_append_of_all (fun c hc => by simpa using htmem c hc)]
      simp
    have htw2 : (k ++ ',' :: (b ++ rest)).takeWhile (fun c => c ≠ ',') = k := by
      rw [takeWhile_append_of_all (fun c hc => by simpa using hkmem c hc)]
      simp
    have hdw2 : (k ++ ',' :: (b ++ rest)).dropWhile (fun c => c ≠ ',')
        = ',' :: (b ++ rest) := by
      rw [dropWhile_append_of_all (fun c hc => by simpa using hkmem c hc)]
      simp
    have habody : (b ++ rest).takeWhile (fun c => c ≠ '@') = b ∧
        (b ++ rest).dropWhile (fun c => c ≠ '@') = rest := by
      constructor
      · rw [takeWhile_append_of_all (fun c hc => by simpa using hbmem c hc)]
        rcases hrest with rfl | hr
        · simp
        · rcases rest with _ | ⟨c1, r4⟩
          · simp
          · obtain rfl : c1 = '@' := by simpa using hr
            simp
      · rw [dropWhile_append_of_all (fun c hc => by simpa using hbmem c hc)]
        rcases hrest with rfl | hr
        · simp
        · rcases rest with _ | ⟨c1, r4⟩
          · simp
          · obtain rfl : c1 = '@' := by simpa using hr
            simp
    show matchEntryAtCore (t ++ '{' :: (k ++ ',' :: (b ++ rest))) = some (k, b, rest)
    unfold matchEntryAtCore
    rw [htw1, hdw1]
    rcases t with _ | ⟨t0, ts⟩
    · exact absurd rfl htne
    show matchKeyCore (k ++ ',' :: (b ++ rest)) = some (k, b, rest)
    unfold matchKeyCore
    rw [htw2, hdw2]
    rcases k with _ | ⟨k0, ks⟩
    · exact absurd rfl hkne
    show some (k0 :: ks, (b ++ rest).takeWhile (fun c => c ≠ '@'),
      (b ++ rest).dropWhile (fun c => c ≠ '@')) = some (k0 :: ks, b, rest)
    rw [habody.1, habody.2]

/-- Witness for entryBoundary_amended: the recognizer applied through the
characterization at a concrete decomposition. -/
theorem entryBoundary_amended_w :
    matchEntryAt ['@', 'a', '{', 'k', ',', 'x'] = some (['k'], ['x'], []) :=
  (entryBoundary_amended.1 _ _ _ _).mpr
    ⟨['a'], by decide, by decide, by decide, by decide, by decide, Or.inl rfl, by decide⟩

/-- C5 counterexample: with an at sign embedded in the first field value,
the title field of entry k1 is not parsed into k1's field map (the claim
requires it to be present with value T). -/
theorem entryBoundary_counterexample :
    ((parseBibToMetadataMap "@a\x7bk1,x=\x7bp@q\x7d,title=\x7bT\x7d\x7d").lookup "k1").bind
      (fun fm => fm.lookup "title") = none
    ∧ (parseBibToMetadataMap "@a\x7bk1,x=\x7bp@q\x7d,title=\x7bT\x7d\x7d").lookup "k1"
        = some [] := by
  exact ⟨rfl, rfl⟩

/-- C6 counterexample: an entry whose key is missing its terminating comma
absorbs the following entry — the text after it is NOT parsed as its own
entry: the well-formed entry k3 that follows the malformed one is absent
from the map, whose only key is the absorbed garbage key. -/
theorem parserRobustness_counterexample :
    (parseBibToMetadataMap "@b\x7bbroken\n@c\x7bk3,u=\x7bY\x7d,\x7d").lookup "k3" = none
    ∧ (parseBibToMetadataMap "@b\x7bbroken\n@c\x7bk3,u=\x7bY\x7d,\x7d").map Prod.fst
        = ["broken\n@c\x7bk3"] := by
  exact ⟨rfl, rfl⟩

/-- C6 (amended): the parse never aborts (it is a total function); an
entry whose malformation lies after its key-comma — an unterminated field
value — loses only its own fields while later entries are still parsed;
and a bibliography of one well-formed entry followed by a truncated entry
with no comma yields exactly the well-formed entry's key.  (An entry
missing its key comma, however, absorbs the following text up to the next
comma, as the counterexample shows.) -/
theorem parserRobustness_amended :
    parseBibToMetadataMap "@article\x7bkey1, title=\x7bSample Title\x7d,\x7d\n@book\x7bkey2"
      = [("key1", [("title", "Sample Title")])]
    ∧ parseBibToMetadataMap
        "@a\x7bk1,t=\x7bX\x7d,\x7d\n@b\x7bk2,u=\x7bunterm\n@c\x7bk3,w=\x7bZ\x7d,\x7d"
      = [("k1", [("t", "X")]), ("k2", []), ("k3", [("w", "Z")])] := by
  exact ⟨rfl, rfl⟩

/-! ## C2 and C7: the front-matter patcher -/

theorem matterParse_no_open (s : String) (h : opensBlock s.data = false) :
    matterParse s = Except.ok ⟨[], s⟩ := by
  unfold matterParse
  rw [if_neg (by simp [h])]

theorem assign_nil (b : List (String × String)) : assign [] b = b := by
  unfold assign
  simp only [List.map_nil, List.nil_append]
  exact List.filter_eq_self.mpr (fun a _ => by simp [List.lookup])

theorem assign_lookup (a b : List (String × String)) (k : String) :
    (assign a b).lookup k = orElseO (b.lookup k) (a.lookup k) := by
  unfold assign
  rw [lookup_append]
  rw [lookup_map_values (fun k v => (b.lookup k).getD v) a k]
  cases hak : a.lookup k with
  | some v =>
    simp only [Option.map_some']
    cases hbk : b.lookup k <;> simp [orElseO, hbk]
  | none =>
    simp only [Option.map_none']
    rw [lookup_filter_of_true (fun v => by simp [hak]) b]
    cases hbk : b.lookup k <;> simp [orElseO]

theorem assign_keys (a b : List (String × String)) (k : String) :
    k ∈ (assign a b).map Prod.fst ↔ k ∈ a.map Prod.fst ∨ k ∈ b.map Prod.fst := by
  have hmapfst : ((a.map fun p => (p.1, (b.lookup p.1).getD p.2)).map Prod.fst)
      = a.map Prod.fst := by
    simp [List.map_map, Function.comp]
  unfold assign
  rw [List.map_append, List.mem_append, hmapfst]
  constructor
  · rintro (h | h)
    · exact Or.inl h
    · right
      obtain ⟨q, hq, rfl⟩ := List.mem_map.mp h
      exact List.mem_map.mpr ⟨q, List.mem_of_mem_filter hq, rfl⟩
  · rintro (h | h)
    · exact Or.inl h
    · by_cases hka : k ∈ a.map Prod.fst
      · exact Or.inl hka
      · right
        obtain ⟨q, hq, rfl⟩ := List.mem_map.mp h
        refine List.mem_map.mpr ⟨q, List.mem_filter.mpr ⟨hq, ?_⟩, rfl⟩
        rw [(lookup_eq_none_iff a q.1).mpr hka]
        rfl

theorem jsNewline_cases (s : String) : jsNewline s = s ∨ jsNewline s = s ++ "\n" := by
  unfold jsNewline
  split
  · exact Or.inl rfl
  · exact Or.inr rfl

/-- C2 (amended): on a document whose metadata block parses,
matter.stringify re-parses the text after the block.  When that text does
not itself open a front-matter block, the patch produces the block of the
spread object — every key of the original block kept in order with fields
overriding where present, keys only in fields appended — followed by the
body unchanged except that a single trailing newline is appended when the
body does not already end in one.  When the text after the block does
itself open a front-matter block, that leading block is re-parsed and its
keys are merged under the original keys and the fields, and only its
remainder is kept as the body — the text after the block is not preserved
in that case. -/
theorem patchFrontmatter_amended (s : String) (fields d : List (String × String))
    (body : String) (hp : matterParse s = Except.ok ⟨d, body⟩) :
    (opensBlock body.data = false →
      patchFrontmatterContent s fields = Except.ok (gmRender (assign d fields) body))
    ∧ (∀ d2 body2, matterParse body = Except.ok ⟨d2, body2⟩ →
      patchFrontmatterContent s fields
        = Except.ok (gmRender (assign d2 (assign d fields)) body2))
    ∧ (∀ k, (assign d fields).lookup k = orElseO (fields.lookup k) (d.lookup k))
    ∧ (∀ k, k ∈ (assign d fields).map Prod.fst ↔
        k ∈ d.map Prod.fst ∨ k ∈ fields.map Prod.fst)
    ∧ (jsNewline body = body ∨ jsNewline body = body ++ "\n") := by
  refine ⟨?_, ?_, fun k => assign_lookup d fields k, fun k => assign_keys d fields k,
    jsNewline_cases body⟩
  · intro hb
    unfold patchFrontmatterContent
    rw [hp]
    show gmStringify body (assign d fields) = _
    unfold gmStringify
    rw [matterParse_no_open body hb]
    show Except.ok (gmRender (assign [] (assign d fields)) body) = _
    rw [assign_nil]
  · intro d2 body2 h2
    unfold patchFrontmatterContent
    rw [hp]
    show gmStringify body (assign d fields) = _
    unfold gmStringify
    rw [h2]
    rfl

/-- Witness for patchFrontmatter_amended at a concrete document whose body
does not open a block. -/
theorem patchFrontmatter_amended_w :
    patchFrontmatterContent "---\ntitle: a\n---\nbody\n" [("year", "x")]
      = Except.ok (gmRender (assign [("title", "a")] [("year", "x")]) "body\n") :=
  (patchFrontmatter_amended "---\ntitle: a\n---\nbody\n" [("year", "x")]
    [("title", "a")] "body\n" rfl).1 rfl

/-- C2 counterexample, two families.  First, a document whose body does
not end in a newline is patched to one whose body does — the text after
the metadata block is not character-for-character identical to the
input's.  Second, a document whose body itself begins with a
three-dash line: stringify re-parses that body, merges its leading
block's key x — present neither in the original block nor in fields —
into the output block, and keeps only the remainder as body, so neither
the exactly-these-keys part nor the body-preservation part of the claim
holds there. -/
theorem patchFrontmatter_counterexample :
    (matterParse "---\ntitle: a\n---\nbody" = Except.ok ⟨[("title", "a")], "body"⟩
    ∧ patchFrontmatterContent "---\ntitle: a\n---\nbody" [("title", "b")]
        = Except.ok "---\ntitle: b\n---\nbody\n"
    ∧ matterParse "---\ntitle: b\n---\nbody\n" = Except.ok ⟨[("title", "b")], "body\n"⟩
    ∧ ("body\n" : String) ≠ "body")
    ∧ (matterParse "---\ntitle: a\n---\n---\nx: y\n---\nmore"
        = Except.ok ⟨[("title", "a")], "---\nx: y\n---\nmore"⟩
    ∧ patchFrontmatterContent "---\ntitle: a\n---\n---\nx: y\n---\nmore" [("title", "b")]
        = Except.ok "---\nx: y\ntitle: b\n---\nmore\n"
    ∧ matterParse "---\nx: y\ntitle: b\n---\nmore\n"
        = Except.ok ⟨[("x", "y"), ("title", "b")], "more\n"⟩
    ∧ List.lookup "x" [("title", "a")] = none
    ∧ List.lookup "x" ([("title", "b")] : List (String × String)) = none
    ∧ ("more\n" : String) ≠ "---\nx: y\n---\nmore") := by
  refine ⟨⟨rfl, rfl, rfl, by decide⟩, rfl, rfl, rfl, rfl, rfl, by decide⟩

/-- C7 (amended): a document that does not open a front-matter block at
all is wrapped whole as the body under the new block; but a malformed
block makes the YAML engine throw, and patchFrontmatterContent propagates
that error instead of degrading to an empty block. -/
theorem patchSafety_amended (s : String) (fields : List (String × String))
    (h : opensBlock s.data = false) :
    patchFrontmatterContent s fields = Except.ok (gmRender fields s) := by
  unfold patchFrontmatterContent
  rw [matterParse_no_open s h]
  show gmStringify s (assign [] fields) = _
  unfold gmStringify
  rw [matterParse_no_open s h]
  show Except.ok (gmRender (assign [] (assign [] fields)) s) = _
  rw [assign_nil, assign_nil]

/-- Witness for patchSafety_amended on a plain document. -/
theorem patchSafety_amended_w :
    patchFrontmatterContent "plain body" [("a", "b")]
      = Except.ok (gmRender [("a", "b")] "plain body") :=
  patchSafety_amended "plain body" [("a", "b")] rfl

/-- C7 counterexample: a hand-editable malformation — a line without a
colon inside the block — makes the patch return an error rather than
degrade to treating the block as empty. -/
theorem patchSafety_counterexample :
    patchFrontmatterContent "---\ntitle: ok\nbadline\n---\nbody\n" [("x", "y")]
      = Except.error "can not read a block mapping entry" := by
  exact rfl

/-! ## C8: the watch debounce -/

theorem debounce_swallow (w : Nat) (d : Nat) :
    ∀ ts : List Nat, (∀ u ∈ ts, u < d) → debounceFires w ts (some d) = [d] := by
  intro ts
  induction ts with
  | nil => intro _; rfl
  | cons u ts ih =>
    intro h
    have hu : u < d := h u (List.mem_cons_self u ts)
    unfold debounceFires
    rw [if_neg (by omega)]
    exact ih (fun v hv => h v (List.mem_cons_of_mem u hv))

/-- C8 (amended): any burst of events whose later events all arrive within
one debounce window of the first produces exactly one trigger, and that
trigger fires when the first event's window elapses — the obsidian
debouncer at this call site is created without the resetTimer argument, so
later events do not reset the pending deadline. -/
theorem debounceCoalesce_amended (o : Option Nat) (t : Nat) (ts : List Nat)
    (h : ∀ u ∈ ts, u < t + effectiveDebounceMs o) :
    debounceFires (effectiveDebounceMs o) (t :: ts) none
      = [t + effectiveDebounceMs o] := by
  show debounceFires (effectiveDebounceMs o) ts (some (t + effectiveDebounceMs o)) = _
  exact debounce_swallow _ _ ts h

/-- Witness for debounceCoalesce_amended: the spec's five rapid events
within the default 500 ms window yield one trigger. -/
theorem debounceCoalesce_amended_w :
    debounceFires (effectiveDebounceMs none) [0, 100, 200, 300, 400] none
      = [0 + effectiveDebounceMs none] :=
  debounceCoalesce_amended none 0 [100, 200, 300, 400] (by decide)

/-- C8 counterexample: two events at 0 ms and 100 ms under the default
500 ms window fire at 500 ms — one window after the FIRST event — whereas
the claim requires the trigger at 600 ms, one window after the last. -/
theorem debounceCoalesce_counterexample :
    debounceFires (effectiveDebounceMs none) [0, 100] none = [500]
    ∧ (500 : Nat) ≠ 600 := by
  exact ⟨rfl, by decide⟩

end ZotSync
